import Mathlib

/-!
Shallow embedding of the observability subsystem of `event-manager.py`:
the event bus (`PipelineEventManager`), its subscribers
(`EventSubscriber`, `MetricsCollector`), the per-run correlation layer
(`PipelineContext`) and the `step_timing` wrapper.

Modelling conventions:
* Python numbers (wall-clock seconds, durations, metric values) are
  rationals; `time.time()` results are passed in explicitly as `now`
  arguments.
* Python dictionaries with string keys are insertion-ordered association
  lists; assignment replaces in place or appends at the end, as CPython
  does.
* A raised exception is an `Except.error` value; `try/except` is the
  corresponding `match`.
-/

/-- Python values appearing in event dictionaries.  `nil` is Python
`None`; numbers are modelled as rationals. -/
inductive PyVal where
  | str (s : String)
  | num (q : ℚ)
  | nil
  | list (xs : List PyVal)
  | dict (fields : List (String × PyVal))

/-- An event is a Python dict with string keys, in insertion order. -/
abbrev Event := List (String × PyVal)

/-- `d[k]` lookup on an insertion-ordered dict (first occurrence wins;
a well-formed dict has distinct keys). -/
def pyGet : List (String × α) → String → Option α
  | [], _ => none
  | (k', v) :: rest, k => if k' = k then some v else pyGet rest k

/-- `d[k] = v` on an insertion-ordered dict: replace in place if the key
exists, otherwise append at the end (CPython semantics). -/
def pySet : List (String × α) → String → α → List (String × α)
  | [], k, v => [(k, v)]
  | (k', v') :: rest, k, v =>
    if k' = k then (k, v) :: rest else (k', v') :: pySet rest k v

@[simp] theorem pyGet_nil (k : String) : pyGet ([] : List (String × α)) k = none := rfl

@[simp] theorem pyGet_cons (k' k : String) (v : α) (rest : List (String × α)) :
    pyGet ((k', v) :: rest) k = if k' = k then some v else pyGet rest k := rfl

theorem pyGet_pySet_self (m : List (String × α)) (k : String) (v : α) :
    pyGet (pySet m k v) k = some v := by
  induction m with
  | nil => simp [pySet]
  | cons hd tl ih =>
    obtain ⟨k', v'⟩ := hd
    by_cases h : k' = k <;> simp [pySet, h, ih]

theorem pyGet_pySet_other (m : List (String × α)) (k k' : String) (v : α)
    (hne : k ≠ k') : pyGet (pySet m k v) k' = pyGet m k' := by
  induction m with
  | nil => simp [pySet, hne]
  | cons hd tl ih =>
    obtain ⟨k0, v0⟩ := hd
    by_cases h : k0 = k
    · subst h
      simp [pySet, hne]
    · simp [pySet, h, ih]

/-- Looking up a key that is absent from `e` in `e ++ [(k, v)]` finds
the appended binding. -/
theorem pyGet_append_single_absent (e : List (String × α)) (k : String) (v : α)
    (h : pyGet e k = none) : pyGet (e ++ [(k, v)]) k = some v := by
  induction e with
  | nil => simp
  | cons hd tl ih =>
    obtain ⟨k0, v0⟩ := hd
    by_cases hk : k0 = k
    · simp [hk] at h
    · simp only [List.cons_append, pyGet_cons, hk, if_neg hk]
      exact ih (by simpa [hk] using h)

/-- Appending a binding for `k` does not change lookups of other keys. -/
theorem pyGet_append_single_other (e : List (String × α)) (k k' : String) (v : α)
    (hne : k' ≠ k) : pyGet (e ++ [(k, v)]) k' = pyGet e k' := by
  induction e with
  | nil => simp [Ne.symm hne]
  | cons hd tl ih =>
    obtain ⟨k0, v0⟩ := hd
    by_cases hk : k0 = k'
    · simp [hk]
    · simp [hk, ih]

/-! ## `EventSubscriber` and the dispatch loop of `publish_event` -/

/-- A registered subscriber: its class name (used by the bus when
logging a failure), its `event_types` filter list and the behaviour of
its `handle_event` method.  `handle_event` returning `Except.error msg`
models the method raising an exception whose `str()` is `msg`. -/
structure EventSubscriber where
  className : String
  event_types : List String
  handle_event : Event → Except String Unit

/-- `EventSubscriber.should_handle`:
`"*" in self.event_types or event_type in self.event_types`. -/
def EventSubscriber.should_handle (s : EventSubscriber) (event_type : String) : Bool :=
  s.event_types.contains "*" || s.event_types.contains event_type

/-- List of (position, element) pairs starting at index `i`; used to
name subscribers by their registration position. -/
def withIdx : Nat → List α → List (Nat × α)
  | _, [] => []
  | i, a :: l => (i, a) :: withIdx (i + 1) l

@[simp] theorem withIdx_nil (i : Nat) : withIdx i ([] : List α) = [] := rfl

@[simp] theorem withIdx_cons (i : Nat) (a : α) (l : List α) :
    withIdx i (a :: l) = (i, a) :: withIdx (i + 1) l := rfl

/-- The dispatch loop of `PipelineEventManager.publish_event`, from list
position `i` on.  For each subscriber in order: if `should_handle` is
true, invoke `handle_event` inside `try/except`; an `Except.error`
(raised exception) is caught, turned into the
`"Error in subscriber <class>: <msg>"` log line, and iteration
continues with the remaining subscribers.  The result records the
`(position, class name)` of every invoked subscriber and the emitted
error-log lines, in order. -/
def dispatchFrom (event_type : String) (e : Event) :
    Nat → List EventSubscriber → List (Nat × String) × List String
  | _, [] => ([], [])
  | i, s :: rest =>
    let r := dispatchFrom event_type e (i + 1) rest
    if s.should_handle event_type then
      match s.handle_event e with
      | .ok _ => ((i, s.className) :: r.1, r.2)
      | .error msg =>
        ((i, s.className) :: r.1,
          ("Error in subscriber " ++ s.className ++ ": " ++ msg) :: r.2)
    else r

/-- The timestamp step of `publish_event`:
`if "timestamp" not in event: event["timestamp"] = time.time()`.
Pure view of the in-place update (the heap-level view is below). -/
def addTimestamp (e : Event) (now : ℚ) : Event :=
  if (pyGet e "timestamp").isNone then pySet e "timestamp" (.num now) else e

/-- `event.get("event_type", "unknown")`.  Events built by this module
always carry a string `event_type` (or none at all); the catch-all arm
covers the absent-key default. -/
def eventTypeOf (e : Event) : String :=
  match pyGet e "event_type" with
  | some (.str t) => t
  | _ => "unknown"

/-- `PipelineEventManager.publish_event`: add the timestamp if absent,
read the event type, then run the dispatch loop over the registered
subscribers.  Returns the (possibly updated) event together with the
dispatch trace and the error-log lines.  The function is total: a
subscriber failure is consumed by the `try/except` in the loop and
never reaches the publisher. -/
def publish_event (subs : List EventSubscriber) (e : Event) (now : ℚ) :
    Event × (List (Nat × String) × List String) :=
  let e' := addTimestamp e now
  (e', dispatchFrom (eventTypeOf e') e' 0 subs)

/-- Characterisation of the dispatch loop: the invoked subscribers are
exactly the `should_handle`-matching ones in list order, and the logged
lines are exactly the failures among them. -/
theorem dispatchFrom_spec (event_type : String) (e : Event) :
    ∀ (subs : List EventSubscriber) (i : Nat),
      dispatchFrom event_type e i subs =
        (((withIdx i subs).filter (fun p => p.2.should_handle event_type)).map
            (fun p => (p.1, p.2.className)),
          (subs.filter (fun s => s.should_handle event_type)).filterMap (fun s =>
            match s.handle_event e with
            | .ok _ => none
            | .error msg =>
              some ("Error in subscriber " ++ s.className ++ ": " ++ msg))) := by
  intro subs
  induction subs with
  | nil => intro i; rfl
  | cons s rest ih =>
    intro i
    by_cases h : s.should_handle event_type
    · cases hh : s.handle_event e with
      | ok u =>
        simp [dispatchFrom, h, hh, ih (i + 1), List.filter_cons, List.filterMap_cons]
      | error msg =>
        simp [dispatchFrom, h, hh, ih (i + 1), List.filter_cons, List.filterMap_cons]
    · simp [dispatchFrom, h, ih (i + 1), List.filter_cons, List.filterMap_cons]

theorem withIdx_map (f : α → β) : ∀ (l : List α) (i : Nat),
    withIdx i (l.map f) = (withIdx i l).map (fun p => (p.1, f p.2)) := by
  intro l
  induction l with
  | nil => intro i; rfl
  | cons a l ih => intro i; simp [withIdx, ih]

theorem withIdx_mem : ∀ (l : List α) (j : Nat) (p : Nat × α),
    p ∈ withIdx j l ↔ ∃ k, ∃ hk : k < l.length, p.1 = j + k ∧ p.2 = l.get ⟨k, hk⟩ := by
  intro l
  induction l with
  | nil => intro j p; simp [withIdx]
  | cons a l ih =>
    intro j p
    rw [withIdx_cons]
    constructor
    · intro hp
      rcases List.mem_cons.mp hp with h0 | h1
      · exact ⟨0, Nat.succ_pos _, by simp [h0], by simp [h0]⟩
      · rcases (ih (j + 1) p).mp h1 with ⟨k, hk, h2, h3⟩
        refine ⟨k + 1, Nat.succ_lt_succ hk, ?_, ?_⟩
        · rw [h2]; omega
        · simpa using h3
    · rintro ⟨k, hk, h2, h3⟩
      cases k with
      | zero =>
        apply List.mem_cons.mpr
        left
        refine Prod.ext ?_ ?_
        · simpa using h2
        · simpa using h3
      | succ k =>
        apply List.mem_cons.mpr
        right
        apply (ih (j + 1) p).mpr
        refine ⟨k, Nat.lt_of_succ_lt_succ hk, ?_, ?_⟩
        · rw [h2]; omega
        · simpa using h3

/-- A subscriber with the same class name and filter whose
`handle_event` always succeeds; used to state that failures do not
change which subscribers get invoked. -/
def ignoreFailures (s : EventSubscriber) : EventSubscriber :=
  { s with handle_event := fun _ => .ok () }

/-- C1: for every published event and every matching subscriber in
registration order, an exception raised by its `handle_event` is caught
by the bus's `try/except`, logged as
`"Error in subscriber <class name>: <message>"`, and dispatch proceeds:
the invoked subscribers are exactly the matching ones in registration
order, identical to what they would be if every subscriber succeeded,
so a failing subscriber never prevents a later-registered matching
subscriber from receiving the same event.  `publish_event` is a total
function of the subscribers' outcomes, so a subscriber's exception is
never propagated to the publisher. -/
theorem bus_isolates_subscriber_failures (subs : List EventSubscriber) (e : Event) (now : ℚ) :
    (publish_event subs e now).2.1 =
      ((withIdx 0 subs).filter
          (fun p => p.2.should_handle (eventTypeOf (addTimestamp e now)))).map
        (fun p => (p.1, p.2.className)) ∧
    (publish_event subs e now).2.2 =
      (subs.filter
          (fun s => s.should_handle (eventTypeOf (addTimestamp e now)))).filterMap
        (fun s =>
          match s.handle_event (addTimestamp e now) with
          | .ok _ => none
          | .error msg => some ("Error in subscriber " ++ s.className ++ ": " ++ msg)) ∧
    (publish_event (subs.map ignoreFailures) e now).2.1 = (publish_event subs e now).2.1 := by
  refine ⟨?_, ?_, ?_⟩
  · simp [publish_event, dispatchFrom_spec]
  · simp [publish_event, dispatchFrom_spec]
  · simp only [publish_event, dispatchFrom_spec, withIdx_map]
    rw [List.filter_map, List.map_map]
    rfl

/-- C2: `publish_event` assigns `now` as the event's timestamp exactly
when the event had none, and leaves an existing timestamp unchanged;
either way the event handed to the dispatch loop carries a timestamp. -/
theorem publish_event_timestamp (subs : List EventSubscriber) (e : Event) (now : ℚ) :
    pyGet (publish_event subs e now).1 "timestamp" =
      some ((pyGet e "timestamp").getD (.num now)) ∧
    (publish_event subs e now).2 =
      dispatchFrom (eventTypeOf (publish_event subs e now).1) (publish_event subs e now).1
        0 subs := by
  constructor
  · cases h : pyGet e "timestamp" with
    | none => simp [publish_event, addTimestamp, h, pyGet_pySet_self]
    | some v => simp [publish_event, addTimestamp, h]
  · rfl

/-- C5: the subscribers invoked for a published event are exactly the
registration-order subsequence of the registered list on which
`should_handle` holds, `should_handle` holds exactly when the filter
contains the wildcard or the event type itself, and a subscriber whose
filter excludes the event type is never invoked (at its registration
position) for that event. -/
theorem dispatch_filters_in_registration_order (subs : List EventSubscriber) (e : Event)
    (now : ℚ) :
    (∀ (s : EventSubscriber) (t : String),
        s.should_handle t = true ↔ "*" ∈ s.event_types ∨ t ∈ s.event_types) ∧
    (publish_event subs e now).2.1 =
      ((withIdx 0 subs).filter
          (fun p => p.2.should_handle (eventTypeOf (addTimestamp e now)))).map
        (fun p => (p.1, p.2.className)) ∧
    (∀ (i : Nat) (h : i < subs.length),
        (subs.get ⟨i, h⟩).should_handle (eventTypeOf (addTimestamp e now)) = false →
        ∀ n : String, (i, n) ∉ (publish_event subs e now).2.1) := by
  have hchar : (publish_event subs e now).2.1 =
      ((withIdx 0 subs).filter
          (fun p => p.2.should_handle (eventTypeOf (addTimestamp e now)))).map
        (fun p => (p.1, p.2.className)) := by
    simp [publish_event, dispatchFrom_spec]
  refine ⟨?_, hchar, ?_⟩
  · intro s t
    simp [EventSubscriber.should_handle]
  · intro i h hfalse n hmem
    rw [hchar] at hmem
    rcases List.mem_map.mp hmem with ⟨q, hq, heq⟩
    rcases List.mem_filter.mp hq with ⟨hqmem, hqsh⟩
    rcases (withIdx_mem _ 0 q).mp hqmem with ⟨k, hk, hq1, hq2⟩
    have hki : k = i := by
      have h1 := congrArg Prod.fst heq
      simp only at h1
      omega
    subst hki
    rw [hq2] at hqsh
    have h2 : (subs.get ⟨k, h⟩).should_handle (eventTypeOf (addTimestamp e now)) = true :=
      hqsh
    rw [hfalse] at h2
    cases h2

/-- Witness for C5 at a concrete input: the second of two registered
subscribers filters on `"y"`, the published event has type `"x"`, and
that subscriber is not invoked. -/
theorem dispatch_filters_witness :
    ((1 : Nat), "SubB") ∉
      (publish_event
        [⟨"SubA", ["x"], fun _ => .ok ()⟩, ⟨"SubB", ["y"], fun _ => .ok ()⟩]
        [("event_type", PyVal.str "x")] 0).2.1 :=
  (dispatch_filters_in_registration_order
      [⟨"SubA", ["x"], fun _ => .ok ()⟩, ⟨"SubB", ["y"], fun _ => .ok ()⟩]
      [("event_type", PyVal.str "x")] 0).2.2 1 (by decide) (by rfl) "SubB"

/-! ## `PipelineContext` -/

/-- Python `None`-or-string, as stored in the `parent_id` field of an
event. -/
def optStr : Option String → PyVal
  | Option.none => .nil
  | some s => .str s

/-- `PipelineContext`: run id, optional parent id, creation time
(`self.start_time = time.time()`), and the `step_times` dict mapping a
step name to its most recently recorded start time. -/
structure PipelineContext where
  pipeline_id : String
  parent_id : Option String
  start_time : ℚ
  step_times : List (String × ℚ)

/-- `PipelineContext.record_step_start`: store `now` as the step's
start (overwriting any prior start for that name) and build the
`step_start` event passed to `publish_event`. -/
def PipelineContext.record_step_start (ctx : PipelineContext) (step : String) (now : ℚ) :
    PipelineContext × Event :=
  ({ ctx with step_times := pySet ctx.step_times step now },
    [("event_type", .str "step_start"), ("pipeline_id", .str ctx.pipeline_id),
      ("parent_id", optStr ctx.parent_id), ("step", .str step)])

/-- The `output_info` descriptor computed by `record_step_end`.
`nil` outputs (`outputs is None`) yield no descriptor; a list yields
sequence kind plus length; other representable values yield their type
name.  (Custom objects with a `__dict__` are not representable as a
`PyVal`, so the attribute-names branch of the source has no
counterpart here.) -/
def outputInfo : PyVal → PyVal
  | .nil => .nil
  | .list xs => .dict [("type", .str "list"), ("length", .num xs.length)]
  | .str _ => .dict [("type", .str "str")]
  | .num _ => .dict [("type", .str "float")]
  | .dict _ => .dict [("type", .str "dict")]

/-- `PipelineContext.record_step_end`: compute
`duration = now - self.step_times.get(step, self.start_time)` (the
dict access uses a default, so the call is total and never raises),
leave `step_times` unchanged, and build the `step_end` event. -/
def PipelineContext.record_step_end (ctx : PipelineContext) (step : String) (now : ℚ)
    (outputs : PyVal) : PipelineContext × Event :=
  let startTime := (pyGet ctx.step_times step).getD ctx.start_time
  let duration := now - startTime
  (ctx,
    [("event_type", .str "step_end"), ("pipeline_id", .str ctx.pipeline_id),
      ("parent_id", optStr ctx.parent_id), ("step", .str step),
      ("duration", .num duration), ("output_info", outputInfo outputs)])

/-- A Python exception as seen by `record_error`: its `str()` and its
class name. -/
structure PyErr where
  msg : String
  typeName : String

/-- `PipelineContext.record_error`: build the `error` event; the
context state is untouched. -/
def PipelineContext.record_error (ctx : PipelineContext) (step : String) (e : PyErr) :
    PipelineContext × Event :=
  (ctx,
    [("event_type", .str "error"), ("pipeline_id", .str ctx.pipeline_id),
      ("parent_id", optStr ctx.parent_id), ("step", .str step),
      ("error", .str e.msg), ("error_type", .str e.typeName)])

/-- `PipelineContext.record_metric`: build the `metric` event; the
context state is untouched. -/
def PipelineContext.record_metric (ctx : PipelineContext) (step metricName : String)
    (value : ℚ) : PipelineContext × Event :=
  (ctx,
    [("event_type", .str "metric"), ("pipeline_id", .str ctx.pipeline_id),
      ("parent_id", optStr ctx.parent_id), ("step", .str step),
      ("metric_name", .str metricName), ("metric_value", .num value)])

/-- `PipelineContext.get_step_timing`:
`time.time() - self.step_times[step]` if the step name is a key of
`step_times`, else `None`. -/
def PipelineContext.get_step_timing (ctx : PipelineContext) (step : String) (now : ℚ) :
    Option ℚ :=
  match pyGet ctx.step_times step with
  | some t0 => some (now - t0)
  | Option.none => Option.none

/-- One producer-side operation on a context, with its wall-clock
instant. -/
inductive CtxOp where
  | start (step : String) (t : ℚ)
  | finish (step : String) (t : ℚ) (outputs : PyVal)
  | err (step : String) (e : PyErr)
  | metric (step : String) (metricName : String) (value : ℚ)

/-- The context-state effect of one operation (the built event is
dropped). -/
def PipelineContext.applyOp (ctx : PipelineContext) : CtxOp → PipelineContext
  | .start s t => (ctx.record_step_start s t).1
  | .finish s t o => (ctx.record_step_end s t o).1
  | .err s e => (ctx.record_error s e).1
  | .metric s n v => (ctx.record_metric s n v).1

/-- Run a whole history of operations on a context. -/
def PipelineContext.applyOps (ctx : PipelineContext) (ops : List CtxOp) : PipelineContext :=
  ops.foldl PipelineContext.applyOp ctx

/-- The time of the most recent `start` for `step` in a history, if
any. -/
def lastStart : List CtxOp → String → Option ℚ
  | [], _ => Option.none
  | op :: ops, step =>
    match lastStart ops step with
    | some t => some t
    | Option.none =>
      match op with
      | .start s t => if s = step then some t else Option.none
      | _ => Option.none

/-- After running a history, the `step_times` entry of a step is its
most recent recorded start from the history, or whatever it was in the
initial context: `record_step_end` and the other operations never
remove a recorded start. -/
theorem applyOps_step_times (step : String) :
    ∀ (ops : List CtxOp) (ctx : PipelineContext),
      pyGet (ctx.applyOps ops).step_times step =
        (lastStart ops step).orElse (fun _ => pyGet ctx.step_times step) := by
  intro ops
  induction ops with
  | nil => intro ctx; rfl
  | cons op ops ih =>
    intro ctx
    have hstep : ctx.applyOps (op :: ops) = (ctx.applyOp op).applyOps ops := rfl
    rw [hstep, ih]
    cases hl : lastStart ops step with
    | some t => simp [lastStart, hl, Option.orElse]
    | none =>
      cases op with
      | start s t =>
        by_cases hs : s = step
        · subst hs
          simp [lastStart, hl, Option.orElse, PipelineContext.applyOp,
            PipelineContext.record_step_start, pyGet_pySet_self]
        · simp [lastStart, hl, Option.orElse, PipelineContext.applyOp,
            PipelineContext.record_step_start, pyGet_pySet_other _ _ _ _ hs, hs]
      | finish s t o => simp [lastStart, hl, Option.orElse, PipelineContext.applyOp,
          PipelineContext.record_step_end]
      | err s e => simp [lastStart, hl, Option.orElse, PipelineContext.applyOp,
          PipelineContext.record_error]
      | metric s n v => simp [lastStart, hl, Option.orElse, PipelineContext.applyOp,
          PipelineContext.record_metric]

/-- Counterexample to C3: a step that was started at time 1 and ended
at time 2 is queried at time 3.  `record_step_end` never removes the
recorded start, so `get_step_timing` still returns the elapsed time
since the start (`some 2`) instead of the "unknown" (`none`) the claim
requires for a step that has already been ended. -/
theorem get_step_timing_after_end_counterexample :
    (PipelineContext.applyOps ⟨"p1", Option.none, 0, []⟩
        [CtxOp.start "load" 1, CtxOp.finish "load" 2 PyVal.nil]).get_step_timing "load" 3 =
      some 2 ∧
    ¬ (PipelineContext.applyOps ⟨"p1", Option.none, 0, []⟩
        [CtxOp.start "load" 1, CtxOp.finish "load" 2 PyVal.nil]).get_step_timing "load" 3 =
      Option.none := by
  have h : (PipelineContext.applyOps ⟨"p1", Option.none, 0, []⟩
      [CtxOp.start "load" 1, CtxOp.finish "load" 2 PyVal.nil]).get_step_timing "load" 3 =
      some 2 := by
    show some ((3 : ℚ) - 1) = some 2
    norm_num
  exact ⟨h, by simp [h]⟩

/-- C3 amended: for every history of context operations,
`get_step_timing(step)` returns the elapsed time since the step's most
recently recorded start whenever the step was ever started — ending
the step does not clear the recorded start, so an already-ended step
still reports elapsed time since its start — and returns `None` only
when the step was never started. -/
theorem get_step_timing_amended (pid : String) (par : Option String) (t0 : ℚ)
    (ops : List CtxOp) (step : String) (now : ℚ) :
    (PipelineContext.applyOps ⟨pid, par, t0, []⟩ ops).get_step_timing step now =
      (lastStart ops step).map (fun s => now - s) := by
  unfold PipelineContext.get_step_timing
  rw [applyOps_step_times]
  cases lastStart ops step with
  | none => simp [Option.orElse]
  | some t => simp [Option.orElse]

/-- No context operation changes the context's creation time. -/
theorem applyOps_start_time : ∀ (ops : List CtxOp) (ctx : PipelineContext),
    (ctx.applyOps ops).start_time = ctx.start_time := by
  intro ops
  induction ops with
  | nil => intro ctx; rfl
  | cons op ops ih =>
    intro ctx
    have hstep : ctx.applyOps (op :: ops) = (ctx.applyOp op).applyOps ops := rfl
    rw [hstep, ih]
    cases op <;> rfl

/-- C4: for every history of context operations, `record_step_end`
never raises (it is a total function: the start lookup uses
`dict.get` with a default), and the duration it places in the emitted
`step_end` event is `now` minus the step's most recently recorded
start, or `now` minus the context's creation time when the step was
never started.  The second conjunct checks the same field after the
bus's timestamp step, which leaves `duration` untouched. -/
theorem record_step_end_duration (pid : String) (par : Option String) (t0 : ℚ)
    (ops : List CtxOp) (step : String) (now now2 : ℚ) (outputs : PyVal) :
    pyGet ((PipelineContext.applyOps ⟨pid, par, t0, []⟩ ops).record_step_end
        step now outputs).2 "duration" =
      some (.num (now - ((lastStart ops step).getD t0))) ∧
    pyGet (addTimestamp ((PipelineContext.applyOps ⟨pid, par, t0, []⟩ ops).record_step_end
        step now outputs).2 now2) "duration" =
      some (.num (now - ((lastStart ops step).getD t0))) := by
  have hst : pyGet (PipelineContext.applyOps ⟨pid, par, t0, []⟩ ops).step_times step =
      lastStart ops step := by
    rw [applyOps_step_times]
    cases lastStart ops step with
    | none => simp [Option.orElse]
    | some t => simp [Option.orElse]
  have h1 : pyGet ((PipelineContext.applyOps ⟨pid, par, t0, []⟩ ops).record_step_end
      step now outputs).2 "duration" =
      some (.num (now - ((lastStart ops step).getD t0))) := by
    simp [PipelineContext.record_step_end, hst, applyOps_start_time]
  refine ⟨h1, ?_⟩
  unfold addTimestamp
  by_cases hts : (pyGet ((PipelineContext.applyOps ⟨pid, par, t0, []⟩ ops).record_step_end
      step now outputs).2 "timestamp").isNone
  · rw [if_pos hts, pyGet_pySet_other _ _ _ _ (by decide)]
    exact h1
  · rw [if_neg hts]
    exact h1

/-! ## The `step_timing` wrapper -/

/-- The body of the `wrapper` closure produced by the `step_timing`
decorator, with the governing context already resolved.  The wrapped
operation is a function that either returns a value or raises; the
wrapper records the step start, runs the operation, and on normal
completion records the step end with the result and returns it, while
on failure it records the error and re-raises (`raise`) the original
exception.  Returns the final context, the two events built for the
bus, and the wrapper's own outcome. -/
def step_timing_call (step_name : String) (ctx : PipelineContext)
    (func : PyVal → Except PyErr PyVal) (x : PyVal) (tStart tEnd : ℚ) :
    (PipelineContext × List Event) × Except PyErr PyVal :=
  let r1 := ctx.record_step_start step_name tStart
  match func x with
  | .ok result =>
    let r2 := r1.1.record_step_end step_name tEnd result
    ((r2.1, [r1.2, r2.2]), .ok result)
  | .error e =>
    let r2 := r1.1.record_error step_name e
    ((r2.1, [r1.2, r2.2]), .error e)

/-- C8: when the wrapped operation completes normally the wrapper
emits `step_start` then a `step_end` event carrying the elapsed
duration and the descriptor of the operation's result, and returns the
result unchanged; when the operation raises, the wrapper emits
`step_start` then an `error` event and re-raises the original
exception unmodified — it never suppresses or replaces the failure. -/
theorem step_timing_wrapper_behaviour (step_name : String) (ctx : PipelineContext)
    (func : PyVal → Except PyErr PyVal) (x : PyVal) (tStart tEnd : ℚ) :
    step_timing_call step_name ctx func x tStart tEnd =
      match func x with
      | .ok result =>
        (({ ctx with step_times := pySet ctx.step_times step_name tStart },
          [[("event_type", .str "step_start"), ("pipeline_id", .str ctx.pipeline_id),
              ("parent_id", optStr ctx.parent_id), ("step", .str step_name)],
            [("event_type", .str "step_end"), ("pipeline_id", .str ctx.pipeline_id),
              ("parent_id", optStr ctx.parent_id), ("step", .str step_name),
              ("duration", .num (tEnd - tStart)), ("output_info", outputInfo result)]]),
          .ok result)
      | .error e =>
        (({ ctx with step_times := pySet ctx.step_times step_name tStart },
          [[("event_type", .str "step_start"), ("pipeline_id", .str ctx.pipeline_id),
              ("parent_id", optStr ctx.parent_id), ("step", .str step_name)],
            [("event_type", .str "error"), ("pipeline_id", .str ctx.pipeline_id),
              ("parent_id", optStr ctx.parent_id), ("step", .str step_name),
              ("error", .str e.msg), ("error_type", .str e.typeName)]]),
          .error e) := by
  cases h : func x with
  | ok result =>
    simp [step_timing_call, h, PipelineContext.record_step_start,
      PipelineContext.record_step_end, pyGet_pySet_self]
  | error e =>
    simp [step_timing_call, h, PipelineContext.record_step_start,
      PipelineContext.record_error]

/-! ## `MetricsCollector` -/

/-- One `step_end` record kept by the collector:
`{"duration": ..., "timestamp": ...}`. -/
structure StepRec where
  duration : ℚ
  timestamp : ℚ

/-- One `metric` record kept by the collector:
`{"value": ..., "step": ..., "timestamp": ...}`. -/
structure MetricRec where
  value : ℚ
  step : String
  timestamp : ℚ

/-- The per-pipeline entry `{"steps": {...}, "metrics": {...}}`. -/
structure PipeMetrics where
  steps : List (String × List StepRec)
  metrics : List (String × List MetricRec)

/-- `self.metrics`: pipeline id → per-pipeline entry. -/
abbrev MCState := List (String × PipeMetrics)

/-- `event.get(k, "unknown")` restricted to the string-valued fields the
collector reads (events built by this module store strings there). -/
def strField (e : Event) (k : String) : String :=
  match pyGet e k with
  | some (.str s) => s
  | _ => "unknown"

/-- `event.get(k, d)` for a numeric field with numeric default (events
built by this module store numbers there). -/
def numFieldD (e : Event) (k : String) (d : ℚ) : ℚ :=
  match pyGet e k with
  | some (.num q) => q
  | _ => d

namespace MetricsCollector

/-- `MetricsCollector.handle_event`: ensure the pipeline's entry
exists, then on `metric` append `(value, step, timestamp)` under the
metric name and on `step_end` append `(duration, timestamp)` under the
step name; any other event type only ensures the entry.  `now` stands
for the `time.time()` default used when the event lacks a timestamp. -/
def handle_event (st : MCState) (e : Event) (now : ℚ) : MCState :=
  let event_type := strField e "event_type"
  let pid := strField e "pipeline_id"
  let step := strField e "step"
  let st1 := if (pyGet st pid).isNone then pySet st pid ⟨[], []⟩ else st
  let p := (pyGet st1 pid).getD ⟨[], []⟩
  if event_type = "metric" then
    let metricName := strField e "metric_name"
    let rec0 : MetricRec := ⟨numFieldD e "metric_value" 0, step, numFieldD e "timestamp" now⟩
    let bucket := (pyGet p.metrics metricName).getD [] ++ [rec0]
    pySet st1 pid { p with metrics := pySet p.metrics metricName bucket }
  else if event_type = "step_end" then
    let rec0 : StepRec := ⟨numFieldD e "duration" 0, numFieldD e "timestamp" now⟩
    let bucket := (pyGet p.steps step).getD [] ++ [rec0]
    pySet st1 pid { p with steps := pySet p.steps step bucket }
  else st1

/-- `MetricsCollector.get_step_durations`: step name → list of
durations, or the empty dict for an unknown pipeline id. -/
def get_step_durations (st : MCState) (pid : String) : List (String × List ℚ) :=
  match pyGet st pid with
  | Option.none => []
  | some p => p.steps.map (fun sr => (sr.1, sr.2.map StepRec.duration))

/-- `MetricsCollector.get_metric_values`: ordered list of a metric's
values, or `[]` for an unknown pipeline or metric name. -/
def get_metric_values (st : MCState) (pid metricName : String) : List ℚ :=
  match pyGet st pid with
  | Option.none => []
  | some p =>
    match pyGet p.metrics metricName with
    | Option.none => []
    | some recs => recs.map MetricRec.value

/-- `MetricsCollector.get_average_duration`:
`durations = self.get_step_durations(pid).get(step, [])`, then `None`
if empty, else `sum(durations) / len(durations)`. -/
def get_average_duration (st : MCState) (pid step : String) : Option ℚ :=
  let durations := (pyGet (get_step_durations st pid) step).getD []
  if durations = [] then Option.none
  else some (durations.sum / durations.length)

end MetricsCollector

theorem pyGet_map_snd (f : β → γ) : ∀ (l : List (String × β)) (k : String),
    pyGet (l.map (fun p => (p.1, f p.2))) k = (pyGet l k).map f := by
  intro l
  induction l with
  | nil => intro k; rfl
  | cons hd tl ih =>
    intro k
    obtain ⟨k0, v0⟩ := hd
    by_cases h : k0 = k <;> simp [h, ih]

/-- C6: `get_average_duraton`'s result, characterised against the raw
collector state: the arithmetic mean (sum over count) of the step's
recorded durations when at least one exists, and `None` — not `0` and
not an error — when the pipeline id is unknown or the step has no
recorded durations. -/
theorem get_average_duration_mean_or_none (st : MCState) (pid step : String) :
    MetricsCollector.get_average_duration st pid step =
      match ((pyGet st pid).map (fun p => (pyGet p.steps step).getD [])).getD [] with
      | [] => Option.none
      | recs => some ((recs.map StepRec.duration).sum / recs.length) := by
  unfold MetricsCollector.get_average_duration MetricsCollector.get_step_durations
  cases hp : pyGet st pid with
  | none => simp
  | some p =>
    have hmap : pyGet (p.steps.map (fun sr => (sr.1, sr.2.map StepRec.duration))) step =
        (pyGet p.steps step).map (fun l => l.map StepRec.duration) :=
      pyGet_map_snd (fun l => l.map StepRec.duration) p.steps step
    cases hs : pyGet p.steps step with
    | none => simp [hmap, hs]
    | some recs =>
      cases recs with
      | nil => simp [hmap, hs]
      | cons r rs => simp [hmap, hs]

/-! ## Interleaved `register_subscriber` / `publish_event` (C9)

`publish_event` iterates `self.subscribers` directly — it acquires no
lock and takes no copy — while `register_subscriber` appends under the
registration lock.  The micro-step semantics below interleaves one
in-flight publish (a CPython list iterator: bounds check against the
current list, then read of the current cell) with atomic appends (each
append runs under the lock, so it is one step). -/

/-- State of one in-flight publish over the shared subscriber list:
the live list, the iterator position, and the class names of the
subscribers whose `handle_event` has been invoked so far. -/
structure BusState where
  subs : List EventSubscriber
  idx : Nat
  delivered : List String

/-- One scheduler step: either the publisher advances its loop by one
subscriber, or another thread completes `register_subscriber`. -/
inductive BusAct where
  | deliver
  | register (s : EventSubscriber)

/-- Effect of one step.  `deliver` checks the iterator against the
*current* list (CPython `listiterator` semantics), invokes the
subscriber there when its filter matches, and advances; once the index
reaches the current length the publish is finished and further
`deliver` steps are no-ops.  `register` appends to the shared list. -/
def busStep (event_type : String) (st : BusState) : BusAct → BusState
  | .deliver =>
    if h : st.idx < st.subs.length then
      let s := st.subs.get ⟨st.idx, h⟩
      if s.should_handle event_type then
        { st with idx := st.idx + 1, delivered := st.delivered ++ [s.className] }
      else { st with idx := st.idx + 1 }
    else st
  | .register s => { st with subs := st.subs ++ [s] }

/-- Run an interleaving of publisher and registration steps. -/
def busRun (event_type : String) (st : BusState) (acts : List BusAct) : BusState :=
  acts.foldl (busStep event_type) st

/-- Counterexample to C9: a publish starts with the registered list
`[SubA]` (so the "snapshot" the claim refers to contains only `SubA`),
`SubB` is registered while the publish is in flight, and the publish
nevertheless delivers the event to `SubB` — the code iterates the live
list, not a snapshot taken under the lock. -/
theorem publish_snapshot_counterexample :
    (busRun "step_end" ⟨[⟨"SubA", ["*"], fun _ => .ok ()⟩], 0, []⟩
        [BusAct.deliver, BusAct.register ⟨"SubB", ["*"], fun _ => .ok ()⟩,
          BusAct.deliver]).delivered = ["SubA", "SubB"] ∧
    [(⟨"SubA", ["*"], fun _ => .ok ()⟩ : EventSubscriber)].map EventSubscriber.className =
      ["SubA"] ∧
    "SubB" ∉ ["SubA"] := by
  refine ⟨rfl, rfl, by decide⟩

/-- Invariant of the interleaved execution: the iterator never passes
the end of the live list, and the subscribers invoked so far are
exactly the matching ones among the first `idx` entries of the
*current* list. -/
def busInv (event_type : String) (st : BusState) : Prop :=
  st.idx ≤ st.subs.length ∧
  st.delivered =
    ((st.subs.take st.idx).filter
        (fun s => s.should_handle event_type)).map EventSubscriber.className

theorem busStep_inv (event_type : String) (st : BusState) (a : BusAct)
    (h : busInv event_type st) : busInv event_type (busStep event_type st a) := by
  obtain ⟨hlen, hdel⟩ := h
  cases a with
  | register s =>
    unfold busInv busStep
    constructor
    · simp only [List.length_append, List.length_cons, List.length_nil]
      omega
    · rw [List.take_append_of_le_length hlen]
      exact hdel
  | deliver =>
    by_cases hlt : st.idx < st.subs.length
    · have hstep : busStep event_type st .deliver =
          if (st.subs.get ⟨st.idx, hlt⟩).should_handle event_type then
            { st with
              idx := st.idx + 1
              delivered := st.delivered ++ [(st.subs.get ⟨st.idx, hlt⟩).className] }
          else { st with idx := st.idx + 1 } := by
        simp [busStep, hlt]
      have htake : st.subs.take (st.idx + 1) =
          st.subs.take st.idx ++ [st.subs.get ⟨st.idx, hlt⟩] := by
        rw [List.take_succ, List.getElem?_eq_getElem hlt]
        rfl
      rw [hstep]
      by_cases hsh : (st.subs.get ⟨st.idx, hlt⟩).should_handle event_type = true
      · rw [if_pos hsh]
        unfold busInv
        constructor
        · exact hlt
        · dsimp only
          rw [htake, List.filter_append, List.map_append, ← hdel]
          congr 1
          rw [List.filter_cons, if_pos hsh]
          simp
      · rw [if_neg hsh]
        unfold busInv
        constructor
        · exact hlt
        · dsimp only
          rw [htake, List.filter_append, List.map_append, ← hdel]
          rw [List.filter_cons, if_neg hsh]
          simp
    · have hstep : busStep event_type st .deliver = st := by
        simp [busStep, hlt]
      rw [hstep]
      exact ⟨hlen, hdel⟩

/-- C9 amended: `publish_event` holds no lock during dispatch and
takes no snapshot — it iterates the live subscriber list.  In every
interleaving with `register_subscriber` (whose append is atomic under
the registration lock), the subscribers invoked by the in-flight
publish are exactly the matching ones among the first `idx` entries of
the current list; consequently a subscriber registered during an
in-flight publish is observed by that publish whenever its
registration lands before the iteration reaches the end of the list. -/
theorem publish_live_list_amended (event_type : String) (subs0 : List EventSubscriber)
    (acts : List BusAct) :
    (busRun event_type ⟨subs0, 0, []⟩ acts).idx ≤
      (busRun event_type ⟨subs0, 0, []⟩ acts).subs.length ∧
    (busRun event_type ⟨subs0, 0, []⟩ acts).delivered =
      (((busRun event_type ⟨subs0, 0, []⟩ acts).subs.take
            (busRun event_type ⟨subs0, 0, []⟩ acts).idx).filter
          (fun s => s.should_handle event_type)).map EventSubscriber.className := by
  have hrun : ∀ (l : List BusAct) (st : BusState), busInv event_type st →
      busInv event_type (busRun event_type st l) := by
    intro l
    induction l with
    | nil => intro st h; exact h
    | cons a l ih =>
      intro st h
      exact ih (busStep event_type st a) (busStep_inv event_type st a h)
  exact hrun acts ⟨subs0, 0, []⟩ ⟨Nat.zero_le _, by simp [busInv]⟩

/-! ## In-place timestamp mutation by the bus (C10) -/

/-- A heap of Python dict objects: address → event dictionary.  The
caller's event lives at some address; `publish_event` mutates it there
rather than working on a copy. -/
def EventHeap := Nat → Option Event

/-- Overwrite the object at address `a`. -/
def EventHeap.write (h : EventHeap) (a : Nat) (e : Event) : EventHeap :=
  fun b => if b = a then some e else h b

/-- The mutation `publish_event` performs on the caller's event object
(`if "timestamp" not in event: event["timestamp"] = time.time()`), as
a heap update at the event's address: the assignment goes into the
very dict the caller passed.  (A dangling address leaves the heap
unchanged; it cannot arise for a passed-in object.) -/
def publishTimestampHeap (h : EventHeap) (a : Nat) (now : ℚ) : EventHeap :=
  match h a with
  | some e => h.write a (addTimestamp e now)
  | Option.none => h

/-- C10: publishing mutates the caller's event dict in place — after
the call the object at the caller's address carries a `timestamp` key
(the bus's `now` if the caller had not set one, the caller's own value
otherwise), every other key of the caller's event is unchanged, and no
other heap object is touched by the bus. -/
theorem publish_event_mutates_caller_event (h : EventHeap) (a : Nat) (e : Event) (now : ℚ)
    (he : h a = some e) :
    publishTimestampHeap h a now a = some (addTimestamp e now) ∧
    pyGet (addTimestamp e now) "timestamp" = some ((pyGet e "timestamp").getD (.num now)) ∧
    (∀ k : String, k ≠ "timestamp" → pyGet (addTimestamp e now) k = pyGet e k) ∧
    (∀ b : Nat, b ≠ a → publishTimestampHeap h a now b = h b) := by
  refine ⟨?_, ?_, ?_, ?_⟩
  · unfold publishTimestampHeap
    rw [he]
    unfold EventHeap.write
    simp
  · unfold addTimestamp
    cases hts : pyGet e "timestamp" with
    | none => simp [hts, pyGet_pySet_self]
    | some v => simp [hts]
  · intro k hk
    unfold addTimestamp
    cases hts : pyGet e "timestamp" with
    | none =>
      simp only [hts, Option.isNone_none, if_pos]
      exact pyGet_pySet_other e "timestamp" k (.num now) (Ne.symm hk)
    | some v => simp [hts]
  · intro b hb
    unfold publishTimestampHeap
    rw [he]
    unfold EventHeap.write
    simp [hb]

/-- Witness for C10 at a concrete heap: a one-object heap holding an
event without a timestamp; after publishing, that object has the
bus-assigned timestamp appended and the rest of the heap is
untouched. -/
theorem publish_event_mutates_caller_witness :
    publishTimestampHeap
        (fun b => if b = 0 then some [("event_type", PyVal.str "metric")] else Option.none)
        0 7 0 =
      some [("event_type", PyVal.str "metric"), ("timestamp", PyVal.num 7)] ∧
    publishTimestampHeap
        (fun b => if b = 0 then some [("event_type", PyVal.str "metric")] else Option.none)
        0 7 1 = Option.none := by
  have h := publish_event_mutates_caller_event
    (fun b => if b = 0 then some [("event_type", PyVal.str "metric")] else Option.none)
    0 [("event_type", PyVal.str "metric")] 7 rfl
  exact ⟨by rw [h.1]; rfl, h.2.2.2 1 (by decide)⟩

/-! ## `export_metrics` as a deep copy (C7)

`export_metrics` runs `json.loads(json.dumps(self.metrics))` under the
collector's lock.  To talk about aliasing and in-place mutation of the
result, the collector's nested dict/list structure lives in an object
heap: every dict, list and scalar is a cell, containers hold the
addresses of their children.  `json.dumps` is serialisation of the
reachable region into a pure tree (`toTree`, with fuel since an
arbitrary heap may be cyclic); `json.loads` materialises that tree at
fresh addresses (`allocTree`). -/

/-- One heap cell of a JSON-serialisable Python value.  Containers
hold the addresses of their children. -/
inductive JVal where
  | num (q : ℚ)
  | str (s : String)
  | null
  | arr (elems : List Nat)
  | obj (fields : List (String × Nat))

/-- The addresses a cell refers to. -/
def childAddrs : JVal → List Nat
  | .num _ => []
  | .str _ => []
  | .null => []
  | .arr elems => elems
  | .obj fields => fields.map Prod.snd

/-- An object heap with a bump allocator: addresses at or above `next`
are free. -/
structure JHeap where
  store : Nat → Option JVal
  next : Nat

/-- Allocate a fresh cell. -/
def JHeap.alloc (h : JHeap) (v : JVal) : JHeap × Nat :=
  (⟨fun b => if b = h.next then some v else h.store b, h.next + 1⟩, h.next)

/-- Overwrite an existing cell in place. -/
def JHeap.write (h : JHeap) (a : Nat) (v : JVal) : JHeap :=
  ⟨fun b => if b = a then some v else h.store b, h.next⟩

/-- A sequence of in-place mutations. -/
def applyWrites (h : JHeap) (ws : List (Nat × JVal)) : JHeap :=
  ws.foldl (fun hh w => hh.write w.1 w.2) h

/-! Pure JSON trees — the value `json.dumps` serialises. -/
mutual
inductive JTree where
  | num (q : ℚ)
  | str (s : String)
  | null
  | arr (items : JItems)
  | obj (fields : JFields)
inductive JItems where
  | nil
  | cons (hd : JTree) (tl : JItems)
inductive JFields where
  | nil
  | cons (key : String) (hd : JTree) (tl : JFields)
end

/-- Read a list of cells with a given reader for each element. -/
def toItemsWith (f : Nat → Option JTree) : List Nat → Option JItems
  | [] => some .nil
  | a :: as =>
    match f a, toItemsWith f as with
    | some t, some ts => some (.cons t ts)
    | _, _ => Option.none

/-- Read the fields of an object cell with a given reader for each
value. -/
def toFieldsWith (f : Nat → Option JTree) : List (String × Nat) → Option JFields
  | [] => some .nil
  | (k, a) :: fs =>
    match f a, toFieldsWith f fs with
    | some t, some ts => some (.cons k t ts)
    | _, _ => Option.none

/-- One level of serialisation, with `rec` reading the children. -/
def toTreeStep (s : Nat → Option JVal) (rec : Nat → Option JTree) (a : Nat) :
    Option JTree :=
  match s a with
  | Option.none => Option.none
  | some (.num q) => some (.num q)
  | some (.str t) => some (.str t)
  | some .null => some .null
  | some (.arr elems) => (toItemsWith rec elems).map JTree.arr
  | some (.obj fields) => (toFieldsWith rec fields).map JTree.obj

/-- Serialise the region reachable from an address into a pure tree
(`json.dumps`), with fuel bounding the depth explored (an arbitrary
heap may be cyclic; `json.dumps` raises on those, here serialisation
just fails). -/
def toTree (s : Nat → Option JVal) : Nat → Nat → Option JTree
  | 0 => fun _ => Option.none
  | fuel + 1 => toTreeStep s (toTree s fuel)

/-! Materialise a pure tree at fresh addresses (`json.loads`):
children first, then the parent cell. -/
mutual
def allocTree (h : JHeap) : JTree → JHeap × Nat
  | .num q => h.alloc (.num q)
  | .str t => h.alloc (.str t)
  | .null => h.alloc .null
  | .arr items =>
    let r := allocItems h items
    r.1.alloc (.arr r.2)
  | .obj fields =>
    let r := allocFields h fields
    r.1.alloc (.obj r.2)
def allocItems (h : JHeap) : JItems → JHeap × List Nat
  | .nil => (h, [])
  | .cons t ts =>
    let r1 := allocTree h t
    let r2 := allocItems r1.1 ts
    (r2.1, r1.2 :: r2.2)
def allocFields (h : JHeap) : JFields → JHeap × List (String × Nat)
  | .nil => (h, [])
  | .cons k t ts =>
    let r1 := allocTree h t
    let r2 := allocFields r1.1 ts
    (r2.1, (k, r1.2) :: r2.2)
end

/-- `MetricsCollector.export_metrics`:
`json.loads(json.dumps(self.metrics))` under the collector's lock —
serialise the state reachable from `root`, then materialise the copy
at fresh addresses. -/
def export_metrics (h : JHeap) (root fuel : Nat) : Option (JHeap × Nat) :=
  (toTree h.store fuel root).map (allocTree h)

/-! Heights, to know how much fuel reading a materialised tree back
needs. -/
mutual
def JTree.heightT : JTree → Nat
  | .num _ => 1
  | .str _ => 1
  | .null => 1
  | .arr items => items.heightI + 1
  | .obj fields => fields.heightF + 1
def JItems.heightI : JItems → Nat
  | .nil => 0
  | .cons t ts => max t.heightT ts.heightI
def JFields.heightF : JFields → Nat
  | .nil => 0
  | .cons _ t ts => max t.heightT ts.heightF
end

/-- Every allocated cell's children lie below the allocation
frontier. -/
def closedBelow (s : Nat → Option JVal) (n : Nat) : Prop :=
  ∀ a, a < n → ∀ b ∈ childAddrs ((s a).getD .null), b < n

/-- Well-formed heap: nothing above the frontier is allocated, and
allocated cells only point below the frontier. -/
def JHeap.WF (h : JHeap) : Prop :=
  (∀ a, h.next ≤ a → h.store a = Option.none) ∧ closedBelow h.store h.next

theorem toItemsWith_congr (f g : Nat → Option JTree) :
    ∀ (l : List Nat), (∀ b ∈ l, f b = g b) → toItemsWith f l = toItemsWith g l := by
  intro l
  induction l with
  | nil => intro h; rfl
  | cons a as ih =>
    intro h
    have h1 : f a = g a := h a (by simp)
    have h2 : toItemsWith f as = toItemsWith g as := ih (fun b hb => h b (by simp [hb]))
    simp [toItemsWith, h1, h2]

theorem toFieldsWith_congr (f g : Nat → Option JTree) :
    ∀ (l : List (String × Nat)), (∀ p ∈ l, f p.2 = g p.2) →
      toFieldsWith f l = toFieldsWith g l := by
  intro l
  induction l with
  | nil => intro h; rfl
  | cons p ps ih =>
    intro h
    obtain ⟨k, a⟩ := p
    have h1 : f a = g a := h (k, a) (by simp)
    have h2 : toFieldsWith f ps = toFieldsWith g ps := ih (fun q hq => h q (by simp [hq]))
    simp [toFieldsWith, h1, h2]

/-- Serialisation only looks at the heap below `n`: two stores that
agree below a closed frontier serialise every address below it
identically, whatever the fuel. -/
theorem toTree_agree (s1 s2 : Nat → Option JVal) (n : Nat)
    (hcl : closedBelow s1 n) (hag : ∀ a, a < n → s2 a = s1 a) :
    ∀ fuel a, a < n → toTree s2 fuel a = toTree s1 fuel a := by
  intro fuel
  induction fuel with
  | zero => intro a ha; rfl
  | succ fuel ih =>
    intro a ha
    show toTreeStep s2 (toTree s2 fuel) a = toTreeStep s1 (toTree s1 fuel) a
    unfold toTreeStep
    rw [hag a ha]
    cases hsa : s1 a with
    | none => rfl
    | some v =>
      cases v with
      | num q => rfl
      | str t => rfl
      | null => rfl
      | arr elems =>
        have hb : ∀ b ∈ elems, b < n := by
          have hc := hcl a ha
          simpa [hsa, childAddrs] using hc
        dsimp only
        rw [toItemsWith_congr (toTree s2 fuel) (toTree s1 fuel) elems
          (fun b hbm => ih b (hb b hbm))]
      | obj fields =>
        have hb : ∀ p ∈ fields, p.2 < n := by
          have hc := hcl a ha
          intro p hp
          exact hc p.2 (by simp [hsa, childAddrs]; exact ⟨p.1, hp⟩)
        dsimp only
        rw [toFieldsWith_congr (toTree s2 fuel) (toTree s1 fuel) fields
          (fun p hpm => ih p.2 (hb p hpm))]

@[simp] theorem alloc_store (h : JHeap) (v : JVal) (b : Nat) :
    (h.alloc v).1.store b = if b = h.next then some v else h.store b := rfl

@[simp] theorem alloc_next (h : JHeap) (v : JVal) : (h.alloc v).1.next = h.next + 1 := rfl

@[simp] theorem alloc_addr (h : JHeap) (v : JVal) : (h.alloc v).2 = h.next := rfl

/-- What one allocation pass guarantees relative to its starting heap:
the frontier only advances, the region below the old frontier is
untouched, and — when the start is well-formed — the result is
well-formed and every cell of the fresh region points only into the
fresh region. -/
def AllocD (h h2 : JHeap) : Prop :=
  h.next ≤ h2.next ∧
  (∀ a, a < h.next → h2.store a = h.store a) ∧
  (h.WF → h2.WF ∧
    ∀ a, h.next ≤ a → ∀ v, h2.store a = some v →
      ∀ b ∈ childAddrs v, h.next ≤ b ∧ b < h2.next)

theorem AllocD.trans {h1 h2 h3 : JHeap} (d12 : AllocD h1 h2) (d23 : AllocD h2 h3) :
    AllocD h1 h3 := by
  obtain ⟨le12, fr12, wf12⟩ := d12
  obtain ⟨le23, fr23, wf23⟩ := d23
  refine ⟨Nat.le_trans le12 le23, ?_, ?_⟩
  · intro a ha
    rw [fr23 a (Nat.lt_of_lt_of_le ha le12), fr12 a ha]
  · intro hwf
    obtain ⟨h2wf, fresh12⟩ := wf12 hwf
    obtain ⟨h3wf, fresh23⟩ := wf23 h2wf
    refine ⟨h3wf, ?_⟩
    intro a ha v hv b hb
    by_cases hlt : a < h2.next
    · rw [fr23 a hlt] at hv
      obtain ⟨hb1, hb2⟩ := fresh12 a ha v hv b hb
      exact ⟨hb1, Nat.lt_of_lt_of_le hb2 le23⟩
    · obtain ⟨hb1, hb2⟩ := fresh23 a (Nat.le_of_not_lt hlt) v hv b hb
      exact ⟨Nat.le_trans le12 hb1, hb2⟩

/-- Allocating a cell with no children extends any heap. -/
theorem alloc_leaf_spec (h : JHeap) (v : JVal) (hv : childAddrs v = []) :
    AllocD h (h.alloc v).1 := by
  refine ⟨Nat.le_succ _, ?_, ?_⟩
  · intro a ha
    rw [alloc_store, if_neg (by omega)]
  · intro hwf
    constructor
    · constructor
      · intro a ha
        rw [alloc_next] at ha
        rw [alloc_store, if_neg (by omega)]
        exact hwf.1 a (by omega)
      · intro a ha b hb
        rw [alloc_next] at ha
        by_cases haeq : a = h.next
        · subst haeq
          rw [alloc_store, if_pos rfl] at hb
          simp [hv] at hb
        · rw [alloc_store, if_neg haeq] at hb
          have halt : a < h.next := by omega
          exact Nat.lt_of_lt_of_le (hwf.2 a halt b hb) (Nat.le_succ _)
    · intro a ha v2 hv2 b hb
      by_cases haeq : a = h.next
      · subst haeq
        rw [alloc_store, if_pos rfl] at hv2
        cases hv2
        simp [hv] at hb
      · rw [alloc_store, if_neg haeq] at hv2
        rw [hwf.1 a (by omega)] at hv2
        cases hv2

/-- Allocating a cell whose children were all produced by a prior
allocation pass from `h` extends `h` as well. -/
theorem alloc_top_spec (h h1 : JHeap) (v : JVal) (hd : AllocD h h1)
    (hch : ∀ b ∈ childAddrs v, h.next ≤ b ∧ b < h1.next) :
    AllocD h (h1.alloc v).1 := by
  obtain ⟨hle, hfr, hwfp⟩ := hd
  refine ⟨by rw [alloc_next]; omega, ?_, ?_⟩
  · intro a ha
    rw [alloc_store, if_neg (by omega), hfr a ha]
  · intro hwf
    obtain ⟨h1wf, h1fresh⟩ := hwfp hwf
    constructor
    · constructor
      · intro a ha
        rw [alloc_next] at ha
        rw [alloc_store, if_neg (by omega)]
        exact h1wf.1 a (by omega)
      · intro a ha b hb
        rw [alloc_next] at ha
        by_cases haeq : a = h1.next
        · subst haeq
          rw [alloc_store, if_pos rfl] at hb
          simp only [Option.getD_some] at hb
          have := (hch b hb).2
          rw [alloc_next]
          omega
        · rw [alloc_store, if_neg haeq] at hb
          have halt : a < h1.next := by omega
          have := h1wf.2 a halt b hb
          rw [alloc_next]
          omega
    · intro a ha v2 hv2 b hb
      by_cases haeq : a = h1.next
      · subst haeq
        rw [alloc_store, if_pos rfl] at hv2
        cases hv2
        have := hch b hb
        rw [alloc_next]
        omega
      · rw [alloc_store, if_neg haeq] at hv2
        by_cases hlt : a < h1.next
        · obtain ⟨hb1, hb2⟩ := h1fresh a ha v2 hv2 b hb
          rw [alloc_next]
          omega
        · rw [h1wf.1 a (by omega)] at hv2
          cases hv2

@[simp] theorem allocTree_num (h : JHeap) (q : ℚ) :
    allocTree h (.num q) = h.alloc (.num q) := rfl

@[simp] theorem allocTree_str (h : JHeap) (s : String) :
    allocTree h (.str s) = h.alloc (.str s) := rfl

@[simp] theorem allocTree_null (h : JHeap) : allocTree h .null = h.alloc .null := rfl

@[simp] theorem allocTree_arr (h : JHeap) (items : JItems) :
    allocTree h (.arr items) =
      (allocItems h items).1.alloc (.arr (allocItems h items).2) := rfl

@[simp] theorem allocTree_obj (h : JHeap) (fields : JFields) :
    allocTree h (.obj fields) =
      (allocFields h fields).1.alloc (.obj (allocFields h fields).2) := rfl

@[simp] theorem allocItems_nil (h : JHeap) : allocItems h .nil = (h, []) := rfl

@[simp] theorem allocItems_cons (h : JHeap) (t : JTree) (ts : JItems) :
    allocItems h (.cons t ts) =
      ((allocItems (allocTree h t).1 ts).1,
        (allocTree h t).2 :: (allocItems (allocTree h t).1 ts).2) := rfl

@[simp] theorem allocFields_nil (h : JHeap) : allocFields h .nil = (h, []) := rfl

@[simp] theorem allocFields_cons (h : JHeap) (k : String) (t : JTree) (ts : JFields) :
    allocFields h (.cons k t ts) =
      ((allocFields (allocTree h t).1 ts).1,
        (k, (allocTree h t).2) :: (allocFields (allocTree h t).1 ts).2) := rfl

theorem toTree_succ (s : Nat → Option JVal) (fuel a : Nat) :
    toTree s (fuel + 1) a = toTreeStep s (toTree s fuel) a := rfl

/-- The identity extension: any heap extends itself. -/
theorem AllocD_refl (h : JHeap) : AllocD h h := by
  refine ⟨Nat.le_refl _, fun a ha => rfl, fun hwf => ⟨hwf, ?_⟩⟩
  intro a ha v hv b hb
  rw [hwf.1 a ha] at hv
  cases hv

/-- Induction motive for `allocTree`: extension, fresh root, and the
copy reading back as the allocated tree. -/
def AllocTreeOK (t : JTree) : Prop :=
  ∀ h : JHeap,
    AllocD h (allocTree h t).1 ∧
    (h.next ≤ (allocTree h t).2 ∧ (allocTree h t).2 < (allocTree h t).1.next) ∧
    (h.WF → ∀ f, JTree.heightT t ≤ f →
      toTree (allocTree h t).1.store f (allocTree h t).2 = some t)

/-- Induction motive for `allocItems`. -/
def AllocItemsOK (ts : JItems) : Prop :=
  ∀ h : JHeap,
    AllocD h (allocItems h ts).1 ∧
    (∀ a ∈ (allocItems h ts).2, h.next ≤ a ∧ a < (allocItems h ts).1.next) ∧
    (h.WF → ∀ f, JItems.heightI ts ≤ f →
      toItemsWith (toTree (allocItems h ts).1.store f) (allocItems h ts).2 = some ts)

/-- Induction motive for `allocFields`. -/
def AllocFieldsOK (fs : JFields) : Prop :=
  ∀ h : JHeap,
    AllocD h (allocFields h fs).1 ∧
    (∀ p ∈ (allocFields h fs).2, h.next ≤ p.2 ∧ p.2 < (allocFields h fs).1.next) ∧
    (h.WF → ∀ f, JFields.heightF fs ≤ f →
      toFieldsWith (toTree (allocFields h fs).1.store f) (allocFields h fs).2 = some fs)

/-- `allocTree` extends the heap, returns a fresh root, keeps the
fresh region closed, and the copy serialises back to exactly the
allocated tree (given enough fuel). -/
theorem allocTree_spec (t : JTree) : AllocTreeOK t := by
  refine @JTree.rec AllocTreeOK AllocItemsOK AllocFieldsOK ?_ ?_ ?_ ?_ ?_ ?_ ?_ ?_ ?_ t
  · intro q h
    refine ⟨alloc_leaf_spec h (.num q) rfl, by constructor <;> simp, ?_⟩
    intro hwf f hf
    have heq : JTree.heightT (.num q) = 1 := rfl
    rw [heq] at hf
    cases f with
    | zero => omega
    | succ f =>
      rw [allocTree_num, alloc_addr, toTree_succ]
      simp [toTreeStep]
  · intro s h
    refine ⟨alloc_leaf_spec h (.str s) rfl, by constructor <;> simp, ?_⟩
    intro hwf f hf
    have heq : JTree.heightT (.str s) = 1 := rfl
    rw [heq] at hf
    cases f with
    | zero => omega
    | succ f =>
      rw [allocTree_str, alloc_addr, toTree_succ]
      simp [toTreeStep]
  · intro h
    refine ⟨alloc_leaf_spec h .null rfl, by constructor <;> simp, ?_⟩
    intro hwf f hf
    have heq : JTree.heightT .null = 1 := rfl
    rw [heq] at hf
    cases f with
    | zero => omega
    | succ f =>
      rw [allocTree_null, alloc_addr, toTree_succ]
      simp [toTreeStep]
  · intro items ih h
    obtain ⟨hd, hbounds, hdec⟩ := ih h
    refine ⟨?_, ?_, ?_⟩
    · rw [allocTree_arr]
      exact alloc_top_spec h (allocItems h items).1 (.arr (allocItems h items).2) hd hbounds
    · rw [allocTree_arr]
      constructor
      · rw [alloc_addr]
        exact hd.1
      · rw [alloc_addr, alloc_next]
        omega
    · intro hwf f hf
      obtain ⟨h1wf, hfresh⟩ := hd.2.2 hwf
      have heq : JTree.heightT (.arr items) = JItems.heightI items + 1 := rfl
      rw [heq] at hf
      cases f with
      | zero => omega
      | succ f =>
        have hf2 : JItems.heightI items ≤ f := by omega
        rw [allocTree_arr, alloc_addr, toTree_succ]
        have hst : ((allocItems h items).1.alloc (.arr (allocItems h items).2)).1.store
            (allocItems h items).1.next = some (.arr (allocItems h items).2) := by simp
        simp only [toTreeStep, hst]
        have hag : ∀ a ∈ (allocItems h items).2,
            toTree ((allocItems h items).1.alloc (.arr (allocItems h items).2)).1.store f a =
              toTree (allocItems h items).1.store f a := by
          intro a hamem
          exact toTree_agree (allocItems h items).1.store _ (allocItems h items).1.next
            h1wf.2 (fun b hb => by rw [alloc_store, if_neg (by omega)]) f a
            (hbounds a hamem).2
        rw [toItemsWith_congr _ _ _ hag, hdec hwf f hf2]
        rfl
  · intro fields ih h
    obtain ⟨hd, hbounds, hdec⟩ := ih h
    refine ⟨?_, ?_, ?_⟩
    · rw [allocTree_obj]
      refine alloc_top_spec h (allocFields h fields).1 (.obj (allocFields h fields).2) hd ?_
      intro b hb
      simp only [childAddrs, List.mem_map] at hb
      obtain ⟨p, hp, rfl⟩ := hb
      exact hbounds p hp
    · rw [allocTree_obj]
      constructor
      · rw [alloc_addr]
        exact hd.1
      · rw [alloc_addr, alloc_next]
        omega
    · intro hwf f hf
      obtain ⟨h1wf, hfresh⟩ := hd.2.2 hwf
      have heq : JTree.heightT (.obj fields) = JFields.heightF fields + 1 := rfl
      rw [heq] at hf
      cases f with
      | zero => omega
      | succ f =>
        have hf2 : JFields.heightF fields ≤ f := by omega
        rw [allocTree_obj, alloc_addr, toTree_succ]
        have hst : ((allocFields h fields).1.alloc (.obj (allocFields h fields).2)).1.store
            (allocFields h fields).1.next = some (.obj (allocFields h fields).2) := by simp
        simp only [toTreeStep, hst]
        have hag : ∀ p ∈ (allocFields h fields).2,
            toTree ((allocFields h fields).1.alloc (.obj (allocFields h fields).2)).1.store
                f p.2 =
              toTree (allocFields h fields).1.store f p.2 := by
          intro p hpmem
          exact toTree_agree (allocFields h fields).1.store _ (allocFields h fields).1.next
            h1wf.2 (fun b hb => by rw [alloc_store, if_neg (by omega)]) f p.2
            (hbounds p hpmem).2
        rw [toFieldsWith_congr _ _ _ hag, hdec hwf f hf2]
        rfl
  · intro h
    refine ⟨AllocD_refl h, ?_, ?_⟩
    · intro a ha
      simp at ha
    · intro hwf f hf
      rfl
  · intro hd tl iht ihts h
    obtain ⟨d1, hb1, dec1⟩ := iht h
    obtain ⟨d2, hb2, dec2⟩ := ihts (allocTree h hd).1
    refine ⟨?_, ?_, ?_⟩
    · rw [allocItems_cons]
      exact d1.trans d2
    · rw [allocItems_cons]
      intro a hamem
      rcases List.mem_cons.mp hamem with rfl | hmem
      · exact ⟨hb1.1, Nat.lt_of_lt_of_le hb1.2 d2.1⟩
      · have hx := hb2 a hmem
        exact ⟨Nat.le_trans d1.1 hx.1, hx.2⟩
    · intro hwf f hf
      have h1wf := (d1.2.2 hwf).1
      have heq : JItems.heightI (.cons hd tl) = max hd.heightT tl.heightI := rfl
      rw [heq] at hf
      have hfT : JTree.heightT hd ≤ f := Nat.le_trans (Nat.le_max_left _ _) hf
      have hfI : JItems.heightI tl ≤ f := Nat.le_trans (Nat.le_max_right _ _) hf
      rw [allocItems_cons]
      have e1 : toTree (allocItems (allocTree h hd).1 tl).1.store f (allocTree h hd).2 =
          some hd := by
        rw [toTree_agree (allocTree h hd).1.store _ (allocTree h hd).1.next h1wf.2
          (fun b hb => d2.2.1 b hb) f _ hb1.2]
        exact dec1 hwf f hfT
      have e2 := dec2 h1wf f hfI
      simp [toItemsWith, e1, e2]
  · intro h
    refine ⟨AllocD_refl h, ?_, ?_⟩
    · intro p hp
      simp at hp
    · intro hwf f hf
      rfl
  · intro key hd tl iht ihts h
    obtain ⟨d1, hb1, dec1⟩ := iht h
    obtain ⟨d2, hb2, dec2⟩ := ihts (allocTree h hd).1
    refine ⟨?_, ?_, ?_⟩
    · rw [allocFields_cons]
      exact d1.trans d2
    · rw [allocFields_cons]
      intro p hpmem
      rcases List.mem_cons.mp hpmem with rfl | hmem
      · exact ⟨hb1.1, Nat.lt_of_lt_of_le hb1.2 d2.1⟩
      · have hx := hb2 p hmem
        exact ⟨Nat.le_trans d1.1 hx.1, hx.2⟩
    · intro hwf f hf
      have h1wf := (d1.2.2 hwf).1
      have heq : JFields.heightF (.cons key hd tl) = max hd.heightT tl.heightF := rfl
      rw [heq] at hf
      have hfT : JTree.heightT hd ≤ f := Nat.le_trans (Nat.le_max_left _ _) hf
      have hfI : JFields.heightF tl ≤ f := Nat.le_trans (Nat.le_max_right _ _) hf
      rw [allocFields_cons]
      have e1 : toTree (allocFields (allocTree h hd).1 tl).1.store f (allocTree h hd).2 =
          some hd := by
        rw [toTree_agree (allocTree h hd).1.store _ (allocTree h hd).1.next h1wf.2
          (fun b hb => d2.2.1 b hb) f _ hb1.2]
        exact dec1 hwf f hfT
      have e2 := dec2 h1wf f hfI
      simp [toFieldsWith, e1, e2]

/-- Decode a serialised list elementwise. -/
def decodeItems (f : JTree → Option α) : JItems → Option (List α)
  | .nil => some []
  | .cons t ts =>
    match f t, decodeItems f ts with
    | some x, some xs => some (x :: xs)
    | _, _ => Option.none

/-- Decode serialised object fields valuewise. -/
def decodeFields (f : JTree → Option α) : JFields → Option (List (String × α))
  | .nil => some []
  | .cons k t ts =>
    match f t, decodeFields f ts with
    | some x, some xs => some ((k, x) :: xs)
    | _, _ => Option.none

/-- `{"duration": ..., "timestamp": ...}` as stored by the collector. -/
def decodeStepRec : JTree → Option StepRec
  | .obj (.cons "duration" (.num d) (.cons "timestamp" (.num ts) .nil)) => some ⟨d, ts⟩
  | _ => Option.none

/-- `{"value": ..., "step": ..., "timestamp": ...}` as stored by the
collector. -/
def decodeMetricRec : JTree → Option MetricRec
  | .obj (.cons "value" (.num v) (.cons "step" (.str s) (.cons "timestamp" (.num ts)
      .nil))) => some ⟨v, s, ts⟩
  | _ => Option.none

def decodeDurList : JTree → Option (List StepRec)
  | .arr items => decodeItems decodeStepRec items
  | _ => Option.none

def decodeMetricList : JTree → Option (List MetricRec)
  | .arr items => decodeItems decodeMetricRec items
  | _ => Option.none

/-- `{"steps": {...}, "metrics": {...}}`. -/
def decodePipe : JTree → Option PipeMetrics
  | .obj (.cons "steps" (.obj sf) (.cons "metrics" (.obj mf) .nil)) =>
    match decodeFields decodeDurList sf, decodeFields decodeMetricList mf with
    | some s, some m => some ⟨s, m⟩
    | _, _ => Option.none
  | _ => Option.none

/-- The whole `self.metrics` dict. -/
def decodeMC : JTree → Option MCState
  | .obj fs => decodeFields decodePipe fs
  | _ => Option.none

/-- The collector state represented by the structure stored at `root`:
serialise, then decode. -/
def readState (s : Nat → Option JVal) (f root : Nat) : Option MCState :=
  (toTree s f root).bind decodeMC

/-- `get_average_duration` against the heap-resident state. -/
def hGet_average_duration (s : Nat → Option JVal) (f root : Nat) (pid step : String) :
    Option (Option ℚ) :=
  (readState s f root).map (fun st => MetricsCollector.get_average_duration st pid step)

/-- `get_step_durations` against the heap-resident state. -/
def hGet_step_durations (s : Nat → Option JVal) (f root : Nat) (pid : String) :
    Option (List (String × List ℚ)) :=
  (readState s f root).map (fun st => MetricsCollector.get_step_durations st pid)

/-- `get_metric_values` against the heap-resident state. -/
def hGet_metric_values (s : Nat → Option JVal) (f root : Nat) (pid metricName : String) :
    Option (List ℚ) :=
  (readState s f root).map (fun st => MetricsCollector.get_metric_values st pid metricName)

theorem applyWrites_store_frame (n : Nat) :
    ∀ (ws : List (Nat × JVal)) (h : JHeap), (∀ w ∈ ws, n ≤ w.1) →
      ∀ a, a < n → (applyWrites h ws).store a = h.store a := by
  intro ws
  induction ws with
  | nil => intro h hws a ha; rfl
  | cons w ws ih =>
    intro h hws a ha
    have hstep : applyWrites h (w :: ws) = applyWrites (h.write w.1 w.2) ws := rfl
    rw [hstep, ih (h.write w.1 w.2) (fun x hx => hws x (by simp [hx])) a ha]
    show (if a = w.1 then some w.2 else h.store a) = h.store a
    rw [if_neg (by have := hws w (by simp); omega)]

/-- C7: `export_metrics` (`json.loads(json.dumps(self.metrics))`)
returns a deep, independent copy of the collector's state: the export
succeeds and hands back the materialised copy, the copy's root is a
fresh address and the fresh region only points at fresh addresses (so
any mutation of the returned structure is a write at a fresh address),
the copy serialises back to exactly the exported state, and after any
sequence of such mutations the state stored at the collector's own
root — and with it `export_metrics`, `get_step_durations`,
`get_metric_values` and `get_average_duration` — is exactly as if the
mutations had not happened. -/
theorem export_metrics_independent_copy (h : JHeap) (root fuel : Nat) (t : JTree)
    (writes : List (Nat × JVal)) (hwf : h.WF) (hroot : root < h.next)
    (ht : toTree h.store fuel root = some t)
    (hw : ∀ w ∈ writes, h.next ≤ w.1) :
    export_metrics h root fuel = some (allocTree h t) ∧
    h.next ≤ (allocTree h t).2 ∧
    (∀ a, h.next ≤ a → ∀ v, (allocTree h t).1.store a = some v →
      ∀ b ∈ childAddrs v, h.next ≤ b) ∧
    (∀ f, JTree.heightT t ≤ f →
      toTree (allocTree h t).1.store f (allocTree h t).2 = some t) ∧
    (∀ f, toTree (applyWrites (allocTree h t).1 writes).store f root =
      toTree h.store f root) ∧
    (∀ f, readState (applyWrites (allocTree h t).1 writes).store f root =
      readState h.store f root) ∧
    (∀ f pid step,
      hGet_average_duration (applyWrites (allocTree h t).1 writes).store f root pid step =
        hGet_average_duration h.store f root pid step) ∧
    (∀ f pid,
      hGet_step_durations (applyWrites (allocTree h t).1 writes).store f root pid =
        hGet_step_durations h.store f root pid) ∧
    (∀ f pid m,
      hGet_metric_values (applyWrites (allocTree h t).1 writes).store f root pid m =
        hGet_metric_values h.store f root pid m) := by
  obtain ⟨hd, hb, hdec⟩ := allocTree_spec t h
  have hkey : ∀ f, toTree (applyWrites (allocTree h t).1 writes).store f root =
      toTree h.store f root := by
    intro f
    refine toTree_agree h.store _ h.next hwf.2 ?_ f root hroot
    intro a ha
    rw [applyWrites_store_frame h.next writes (allocTree h t).1 hw a ha, hd.2.1 a ha]
  refine ⟨by simp [export_metrics, ht], hb.1, ?_, fun f hf => hdec hwf f hf, hkey,
    ?_, ?_, ?_, ?_⟩
  · intro a ha v hv b hbmem
    exact ((hd.2.2 hwf).2 a ha v hv b hbmem).1
  · intro f
    simp only [readState, hkey f]
  · intro f pid step
    simp only [hGet_average_duration, readState, hkey f]
  · intro f pid
    simp only [hGet_step_durations, readState, hkey f]
  · intro f pid m
    simp only [hGet_metric_values, readState, hkey f]

/-- Witness for C7 at a concrete heap: an empty metrics dict at
address 0; after exporting and overwriting the copy's cell (address 1)
the serialisation of the original state is unchanged. -/
theorem export_metrics_independent_copy_witness :
    toTree (applyWrites
        (allocTree ⟨fun b => if b = 0 then some (JVal.obj []) else Option.none, 1⟩
          (JTree.obj JFields.nil)).1 [(1, JVal.num 9)]).store 2 0 =
      toTree (JHeap.mk (fun b => if b = 0 then some (JVal.obj []) else Option.none) 1).store
        2 0 :=
  (export_metrics_independent_copy
    ⟨fun b => if b = 0 then some (JVal.obj []) else Option.none, 1⟩ 0 1
    (JTree.obj JFields.nil) [(1, JVal.num 9)]
    ⟨fun a ha => by
        have ha1 : 1 ≤ a := ha
        simp [show a ≠ 0 by omega],
      fun a ha b hb => by
        have ha1 : a < 1 := ha
        have ha0 : a = 0 := by omega
        subst ha0
        simp [childAddrs] at hb⟩
    (by decide) rfl (by decide)).2.2.2.2.1 2
